import Mathlib

/-!
Shallow embedding of `src/silver/collaboration_networks.py`
(function `process_collaboration_networks`) from the CoOps repository.

The four bronze inputs (issues, pull requests, commits, issue events) are
sequences of JSON objects.  We model the JSON values that the code probes:
`null`, strings, and string-keyed objects.  A raw record is a top-level
object, i.e. a list of key/value pairs (Python dicts have unique keys; we
use first-match lookup, which agrees with dict lookup on such inputs).

Python behaviours that matter and how they are modelled:
* `d.get(k, default)` on a dict: association lookup with default.
* `x.get(k)` where `x` may be any probed value: succeeds only when `x` is
  an object; on `null` (None) or a string it raises AttributeError, which
  we model with `Except.error`.
* truthiness: None and empty strings / empty dicts are falsy.
* the loop `for data_list in [issues_data, ...]: data_list = data_list[1:]`
  at lines 21-23 of the source only rebinds the loop variable; the four
  input lists are left unchanged, so no leading metadata entry is ever
  skipped.  The embedding therefore has no skipping step.
* `defaultdict(set)` / `defaultdict(list)` keyed by repository values or
  login pairs: insertion-ordered association lists.  Keys added to a
  Python set or used as dict keys must be hashable; a dict (object) in
  that position raises TypeError, modelled with `Except.error`.  Only
  `null` and strings remain as possible repository keys (`RKey`); logins
  stored in contributor sets are always non-empty strings because the
  code guards every insertion with a truthiness test.
* `list.sort(key=..., reverse=True)` is a stable descending sort; any
  stable sort by the same key computes the same list, so we use a
  structurally recursive stable insertion sort `sortDesc`.
* Python float division in `collaboration_density` and the two averages
  is modelled as exact rational division (the claims under study only
  concern the exact values 0 and 1 and the zero-denominator guards).
-/

namespace CoOps

/-- JSON values probed by the code: null, strings, objects. -/
inductive JVal where
  | null
  | str (s : String)
  | obj (fields : List (String × JVal))

/-- A raw activity record: a JSON object (Python dict). -/
abbrev Record := List (String × JVal)

/-- Hashable values that can actually occur as repository keys of
`repo_collaborators` (objects raise TypeError before being used as keys). -/
inductive RKey where
  | null
  | str (s : String)
deriving DecidableEq, Repr

/-- `repo_collaborators`: insertion-ordered mapping from repository key to
the set of contributor logins (a Python set, modelled as an
insertion-ordered duplicate-free list). -/
abbrev RepoMap := List (RKey × List String)

/-- Python `d.get(k)` on a record (dict): first-match association lookup. -/
def dget (r : Record) (k : String) : Option JVal :=
  match r with
  | [] => none
  | (k2, v) :: rest => if k2 = k then some v else dget rest k

/-- Python `d.get(k, default)` on a record. -/
def dgetD (r : Record) (k : String) (d : JVal) : JVal :=
  (dget r k).getD d

/-- Python truthiness of the JSON values we model. -/
def JVal.truthy : JVal → Bool
  | .null => false
  | .str s => !s.isEmpty
  | .obj fs => !fs.isEmpty

/-- Truthiness of an optional value (`None` is falsy). -/
def truthyOpt : Option JVal → Bool
  | none => false
  | some v => v.truthy

/-- Python `x.get(k)` where `x` is an arbitrary probed value: objects
support `.get`; `null` (None) and strings raise AttributeError. -/
def pyGet (v : JVal) (k : String) : Except Unit (Option JVal) :=
  match v with
  | .obj fs => .ok (dget fs k)
  | _ => .error ()

/-- Python `set.add` for a string set modelled as a dedup list
(insertion order kept). -/
def setInsert (s : List String) (t : String) : List String :=
  if t ∈ s then s else s ++ [t]

/-- `repo_collaborators[repo].add(t)`: defaultdict access plus set add. -/
def rmInsert (m : RepoMap) (k : RKey) (t : String) : RepoMap :=
  match m with
  | [] => [(k, [t])]
  | (k2, s) :: rest =>
    if k2 = k then (k2, setInsert s t) :: rest else (k2, s) :: rmInsert rest k t

/-- Evaluate a repository value as a dict key: dicts are unhashable
(TypeError); null and strings are valid keys. -/
def JVal.toKey : JVal → Except Unit RKey
  | .obj _ => .error ()
  | .null => .ok .null
  | .str s => .ok (.str s)

/-- `repo_collaborators[repo].add(login)`.  The repository value is
hashed first (Python evaluates the indexing before the argument), then
the login: a dict login is unhashable (TypeError).  A `null` login never
reaches this point because every call site guards with a truthiness test
(None is falsy); the identity result in that dead branch is irrelevant. -/
def addLogin (m : RepoMap) (repo login : JVal) : Except Unit RepoMap :=
  match repo.toKey with
  | .error e => .error e
  | .ok k =>
    match login with
    | .str t => .ok (rmInsert m k t)
    | .obj _ => .error ()
    | .null => .ok m

/-- Lines 29-34: contributor collection from one issue record. -/
def collectIssue (m : RepoMap) (issue : Record) : Except Unit RepoMap :=
  let repo := dgetD issue "repo_name" (.str "unknown")
  match pyGet (dgetD issue "user" (.obj [])) "login" with
  | .error e => .error e
  | .ok uLogin =>
    match (if truthyOpt uLogin then addLogin m repo (uLogin.getD .null) else .ok m) with
    | .error e => .error e
    | .ok m1 =>
      let assignee := dgetD issue "assignee" (.obj [])
      if assignee.truthy then
        match pyGet assignee "login" with
        | .error e => .error e
        | .ok aLogin =>
          if truthyOpt aLogin then addLogin m1 repo (aLogin.getD .null) else .ok m1
      else .ok m1

/-- Lines 36-39: contributor collection from one pull-request record. -/
def collectPR (m : RepoMap) (pr : Record) : Except Unit RepoMap :=
  let repo := dgetD pr "repo_name" (.str "unknown")
  match pyGet (dgetD pr "user" (.obj [])) "login" with
  | .error e => .error e
  | .ok login =>
    if truthyOpt login then addLogin m repo (login.getD .null) else .ok m

/-- Lines 41-44: contributor collection from one commit record. -/
def collectCommit (m : RepoMap) (c : Record) : Except Unit RepoMap :=
  let repo := dgetD c "repo_name" (.str "unknown")
  let author := dgetD c "author" (.obj [])
  if author.truthy then
    match pyGet author "login" with
    | .error e => .error e
    | .ok login =>
      if truthyOpt login then addLogin m repo (login.getD .null) else .ok m
  else .ok m

/-- Lines 46-49: contributor collection from one issue-event record. -/
def collectEvent (m : RepoMap) (ev : Record) : Except Unit RepoMap :=
  let repo := dgetD ev "repo_name" (.str "unknown")
  let actor := dgetD ev "actor" (.obj [])
  if actor.truthy then
    match pyGet actor "login" with
    | .error e => .error e
    | .ok login =>
      if truthyOpt login then addLogin m repo (login.getD .null) else .ok m
  else .ok m

/-- The four bronze input sequences. -/
structure Inputs where
  issues : List Record
  prs : List Record
  commits : List Record
  events : List Record

/-- Error-propagating left fold over a record sequence. -/
def foldE (f : RepoMap → Record → Except Unit RepoMap) :
    RepoMap → List Record → Except Unit RepoMap
  | m, [] => .ok m
  | m, r :: rest =>
    match f m r with
    | .error e => .error e
    | .ok m2 => foldE f m2 rest

/-- Lines 26-49: build `repo_collaborators` from the four inputs.  The
metadata-skipping loop of lines 21-23 is a no-op (see the header note),
so every record of every list is processed. -/
def collectAll (inp : Inputs) : Except Unit RepoMap :=
  match foldE collectIssue [] inp.issues with
  | .error e => .error e
  | .ok m1 =>
    match foldE collectPR m1 inp.prs with
    | .error e => .error e
    | .ok m2 =>
      match foldE collectCommit m2 inp.commits with
      | .error e => .error e
      | .ok m3 => foldE collectEvent m3 inp.events

/-- Canonical edge key, line 64: `tuple(sorted([user1, user2]))` with
Python string comparison (code-point lexicographic).  The comparison is
written on the underlying character lists so that it evaluates
structurally; `mkKey_eq_le` shows it is the `LinearOrder String` order. -/
def mkKey (a b : String) : String × String :=
  if b.data < a.data then (b, a) else (a, b)

theorem mkKey_eq_le (a b : String) :
    mkKey a b = if a ≤ b then (a, b) else (b, a) := by
  unfold mkKey
  by_cases h : a ≤ b
  · rw [if_neg, if_pos h]
    intro hlt
    exact absurd (String.lt_iff_toList_lt.mpr hlt) (not_lt.mpr h)
  · rw [if_pos, if_neg h]
    exact String.lt_iff_toList_lt.mp (not_le.mp h)

/-- The ordered pair enumeration of lines 60-61:
`for i, u1 in enumerate(lst): for u2 in lst[i+1:]`. -/
def pairsOf : List String → List (String × String)
  | [] => []
  | u :: rest => rest.map (fun v => (u, v)) ++ pairsOf rest

/-- `collaboration_repos`: insertion-ordered defaultdict(list) keyed by
canonical login pairs, holding the repositories shared by the pair. -/
abbrev PairMap := List ((String × String) × List RKey)

/-- `user_collaborations`: insertion-ordered defaultdict(set). -/
abbrev UCMap := List (String × List String)

/-- `collaboration_repos[edge_key].append(repo)`. -/
def pmAppend (m : PairMap) (k : String × String) (r : RKey) : PairMap :=
  match m with
  | [] => [(k, [r])]
  | (k2, rs) :: rest =>
    if k2 = k then (k2, rs ++ [r]) :: rest else (k2, rs) :: pmAppend rest k r

/-- `user_collaborations[u].add(v)`. -/
def ucAdd (m : UCMap) (u v : String) : UCMap :=
  match m with
  | [] => [(u, [v])]
  | (u2, s) :: rest =>
    if u2 = u then (u2, setInsert s v) :: rest else (u2, s) :: ucAdd rest u v

/-- Lines 62-68: the body of the pair loop (including the
`if user1 != user2` guard). -/
def addPair (repo : RKey) (st : PairMap × UCMap) (p : String × String) :
    PairMap × UCMap :=
  if p.1 ≠ p.2 then
    (pmAppend st.1 (mkKey p.1 p.2) repo,
     ucAdd (ucAdd st.2 p.1 p.2) p.2 p.1)
  else st

/-- Lines 56-68: accumulate `collaboration_repos` and
`user_collaborations` over all repositories.  Python set iteration order
(`list(contributors)`) is modelled as insertion order; every property
proved below about the resulting maps is independent of that order. -/
def buildMaps (rm : RepoMap) : PairMap × UCMap :=
  rm.foldl (fun st rc => (pairsOf rc.2).foldl (addPair rc.1) st) ([], [])

/-- One record of `collaboration_edges` (lines 71-79).  The constant
field `collaboration_type = "same_repository"` is omitted. -/
structure Edge where
  source : String
  target : String
  weight : Nat
  repos : List RKey
deriving DecidableEq, Repr

/-- Lines 73-79: the edge record of one accumulator entry. -/
def mkEdge (q : (String × String) × List RKey) : Edge :=
  { source := q.1.1, target := q.1.2, weight := q.2.length, repos := q.2 }

/-- Lines 71-79: materialize edges from the pair accumulator. -/
def mkEdges (pm : PairMap) : List Edge :=
  pm.map mkEdge

/-- Stable insertion of `a` into a descending-sorted list: `a` goes
before the first element whose key is not larger, so earlier elements
with equal key stay in front. -/
def insDesc (key : α → Nat) (a : α) : List α → List α
  | [] => [a]
  | b :: l => if key b ≤ key a then a :: b :: l else b :: insDesc key a l

/-- Stable descending sort by a natural-number key.  A stable sort is
uniquely determined by the key order, so this computes exactly what
Python `list.sort(key=..., reverse=True)` (timsort, stable) computes. -/
def sortDesc (key : α → Nat) : List α → List α
  | [] => []
  | a :: l => insDesc key a (sortDesc key l)

/-- One record of `user_collaboration_metrics` (lines 94-101). -/
structure UserMetric where
  user : String
  collaborator_count : Nat
  collaborators : List String
  repositories_contributed : Nat
deriving DecidableEq, Repr

/-- Dict lookup in `user_collaborations` with the defaultdict default. -/
def lookupSet (m : UCMap) (u : String) : List String :=
  match m with
  | [] => []
  | (u2, s) :: rest => if u2 = u then s else lookupSet rest u

/-- `[repo for repo, contributors in repo_collaborators.items() if user in contributors]`. -/
def reposOf (rm : RepoMap) (u : String) : List RKey :=
  (rm.filter (fun rc => u ∈ rc.2)).map (fun rc => rc.1)

/-- Lines 96-101: the metrics record of one `user_collaborations` item. -/
def mkUserMetric (rm : RepoMap) (p : String × List String) : UserMetric :=
  { user := p.1
    collaborator_count := p.2.length
    collaborators := p.2
    repositories_contributed := (reposOf rm p.1).length }

/-- Lines 94-103: per-user metrics, sorted by collaborator count
descending. -/
def mkUserMetrics (rm : RepoMap) (uc : UCMap) : List UserMetric :=
  sortDesc (fun x => x.collaborator_count) (uc.map (mkUserMetric rm))

/-- One record of `repository_collaboration_analysis` (lines 112-127). -/
structure RepoProfile where
  repo : RKey
  contributor_count : Nat
  contributors : List String
  potential_collaborations : Nat
  actual_collaborations : Nat
  collaboration_density : ℚ
deriving DecidableEq, Repr

/-- Lines 113-127: the profile of one repository.  `actual` counts the
(already sorted) edge list; the density guard is
`... if potential_collaborations > 0 else 0`. -/
def mkRepoProfile (edges : List Edge) (rc : RKey × List String) : RepoProfile :=
  let n := rc.2.length
  let potential := n * (n - 1) / 2
  let actual := (edges.filter (fun e => rc.1 ∈ e.repos)).length
  { repo := rc.1
    contributor_count := n
    contributors := rc.2
    potential_collaborations := potential
    actual_collaborations := actual
    collaboration_density :=
      if 0 < potential then (actual : ℚ) / (potential : ℚ) else 0 }

/-- Lines 112-129: all repository profiles, sorted by contributor count
descending. -/
def mkRepoAnalysis (rm : RepoMap) (edges : List Edge) : List RepoProfile :=
  sortDesc (fun x => x.contributor_count) (rm.map (mkRepoProfile edges))

/-- One record of `cross_repository_hubs` (lines 142-147). -/
structure Hub where
  user : String
  repositories : List RKey
  repo_count : Nat
  total_collaborators : Nat
deriving DecidableEq, Repr

/-- Lines 138-151: hubs are the keys of `user_collaborations` that
contribute to more than one repository, sorted by repository count
descending.  (`if cross_repo_contributors:` at line 149 only controls
whether a file is written; the empty hub list represents "no hubs".)
This is the hub record of one cross-repository contributor. -/
def mkHub (rm : RepoMap) (uc : UCMap) (p : String × List String) : Hub :=
  { user := p.1
    repositories := reposOf rm p.1
    repo_count := (reposOf rm p.1).length
    total_collaborators := (lookupSet uc p.1).length }

/-- Lines 138-151: the sorted hub list. -/
def mkHubs (rm : RepoMap) (uc : UCMap) : List Hub :=
  sortDesc (fun x => x.repo_count)
    ((uc.filter (fun p => 1 < (reposOf rm p.1).length)).map (mkHub rm uc))

/-- `network_statistics` (lines 160-167). -/
structure NetworkStats where
  total_users : Nat
  total_collaborations : Nat
  total_repositories : Nat
  cross_repo_contributors : Nat
  avg_collaborators_per_user : ℚ
  avg_contributors_per_repo : ℚ
deriving DecidableEq, Repr

/-- Lines 160-167, with the zero-denominator guards
`... if user_collaborations else 0` and `... if repo_collaborators else 0`. -/
def mkStats (rm : RepoMap) (uc : UCMap) (edges : List Edge)
    (hubs : List Hub) : NetworkStats :=
  { total_users := uc.length
    total_collaborations := edges.length
    total_repositories := rm.length
    cross_repo_contributors := hubs.length
    avg_collaborators_per_user :=
      if uc.isEmpty then 0
      else ((uc.map (fun p => p.2.length)).sum : ℚ) / (uc.length : ℚ)
    avg_contributors_per_repo :=
      if rm.isEmpty then 0
      else ((rm.map (fun p => p.2.length)).sum : ℚ) / (rm.length : ℚ) }

/-- The five artifacts produced by `process_collaboration_networks`
(file writing, the returned path list and the final print are I/O at the
boundary and are not modelled). -/
structure Output where
  edges : List Edge
  user_metrics : List UserMetric
  repo_analysis : List RepoProfile
  hubs : List Hub
  stats : NetworkStats
deriving DecidableEq, Repr

/-- Lines 51-175: everything after the contributor collection succeeded
(the remaining phases are total). -/
def outputOf (rm : RepoMap) : Output :=
  let pm := (buildMaps rm).1
  let uc := (buildMaps rm).2
  let edges := sortDesc (fun e => e.weight) (mkEdges pm)
  let hubs := mkHubs rm uc
  { edges := edges
    user_metrics := mkUserMetrics rm uc
    repo_analysis := mkRepoAnalysis rm edges
    hubs := hubs
    stats := mkStats rm uc edges hubs }

/-- `process_collaboration_networks`, lines 11-176: the complete pure
computation from the four loaded inputs to the five artifacts.
An uncaught Python exception (AttributeError / TypeError, see above)
is `Except.error`. -/
def processCollaborationNetworks (inp : Inputs) : Except Unit Output :=
  match collectAll inp with
  | .error e => .error e
  | .ok rm => .ok (outputOf rm)

/-! ### Generic list lemmas: stable sort, folds -/

theorem foldl_inv {α β : Type} {P : β → Prop} (step : β → α → β) :
    ∀ (l : List α) (b : β), (∀ b2 a, a ∈ l → P b2 → P (step b2 a)) →
      P b → P (l.foldl step b)
  | [], _, _, hb => hb
  | a :: l, b, h, hb =>
    foldl_inv step l (step b a) (fun b2 x hx => h b2 x (List.mem_cons_of_mem a hx))
      (h b a (List.mem_cons_self a l) hb)

theorem insDesc_perm {α : Type} (key : α → Nat) (a : α) :
    ∀ l : List α, List.Perm (insDesc key a l) (a :: l)
  | [] => List.Perm.refl _
  | b :: l => by
    unfold insDesc
    split
    · exact List.Perm.refl _
    · exact ((insDesc_perm key a l).cons b).trans (List.Perm.swap a b l)

theorem sortDesc_perm {α : Type} (key : α → Nat) :
    ∀ l : List α, List.Perm (sortDesc key l) l
  | [] => List.Perm.refl _
  | a :: l => (insDesc_perm key a (sortDesc key l)).trans ((sortDesc_perm key l).cons a)

theorem insDesc_sorted {α : Type} (key : α → Nat) (a : α) :
    ∀ l : List α, l.Pairwise (fun x y => key y ≤ key x) →
      (insDesc key a l).Pairwise (fun x y => key y ≤ key x)
  | [], _ => List.pairwise_singleton _ a
  | b :: l, h => by
    unfold insDesc
    rcases List.pairwise_cons.mp h with ⟨hb, hl⟩
    split
    · rename_i hba
      exact List.pairwise_cons.mpr
        ⟨fun x hx => by
          rcases List.mem_cons.mp hx with rfl | hx
          · exact hba
          · exact le_trans (hb x hx) hba, h⟩
    · rename_i hba
      refine List.pairwise_cons.mpr ⟨fun x hx => ?_, insDesc_sorted key a l hl⟩
      rcases List.mem_cons.mp ((insDesc_perm key a l).mem_iff.mp hx) with rfl | hx
      · exact le_of_lt (Nat.lt_of_not_le hba)
      · exact hb x hx

theorem sortDesc_sorted {α : Type} (key : α → Nat) :
    ∀ l : List α, (sortDesc key l).Pairwise (fun x y => key y ≤ key x)
  | [] => List.Pairwise.nil
  | a :: l => insDesc_sorted key a (sortDesc key l) (sortDesc_sorted key l)

/-! ### Contributor-set insertion -/

theorem mem_setInsert {s : List String} {t x : String} :
    x ∈ setInsert s t ↔ x ∈ s ∨ x = t := by
  unfold setInsert
  split
  · rename_i ht
    constructor
    · exact Or.inl
    · rintro (hx | rfl)
      · exact hx
      · exact ht
  · simp [List.mem_append]

theorem setInsert_nodup {s : List String} (t : String) (h : s.Nodup) :
    (setInsert s t).Nodup := by
  unfold setInsert
  split
  · exact h
  · rename_i ht
    simp [List.nodup_append, h, ht]

theorem setInsert_ne_nil {s : List String} {t : String} : setInsert s t ≠ [] := by
  unfold setInsert
  split
  · rename_i ht
    intro hs
    rw [hs] at ht
    exact absurd ht (List.not_mem_nil t)
  · simp

/-! ### Well-formedness of `repo_collaborators` -/

/-- `repo_collaborators` is a dict of sets: keys are distinct and each
contributor list is duplicate-free. -/
def WF (m : RepoMap) : Prop :=
  (m.map Prod.fst).Nodup ∧ ∀ p ∈ m, p.2.Nodup

theorem mem_keys_rmInsert {m : RepoMap} {k x : RKey} {t : String} :
    x ∈ (rmInsert m k t).map Prod.fst ↔ x ∈ m.map Prod.fst ∨ x = k := by
  induction m with
  | nil => simp [rmInsert]
  | cons p rest ih =>
    obtain ⟨k2, s⟩ := p
    unfold rmInsert
    split
    · rename_i hk
      subst hk
      simp only [List.map_cons, List.mem_cons]
      constructor
      · rintro (rfl | hx)
        · exact Or.inl (Or.inl rfl)
        · exact Or.inl (Or.inr hx)
      · rintro ((rfl | hx) | rfl)
        · exact Or.inl rfl
        · exact Or.inr hx
        · exact Or.inl rfl
    · simp only [List.map_cons, List.mem_cons, ih]
      tauto

theorem rmInsert_WF {m : RepoMap} {k : RKey} {t : String} (h : WF m) :
    WF (rmInsert m k t) := by
  induction m with
  | nil =>
    constructor
    · simp [rmInsert]
    · intro p hp
      simp only [rmInsert, List.mem_singleton] at hp
      subst hp
      exact List.nodup_singleton t
  | cons q rest ih =>
    obtain ⟨k2, s⟩ := q
    obtain ⟨hkeys, hvals⟩ := h
    simp only [List.map_cons, List.nodup_cons] at hkeys
    unfold rmInsert
    split
    · rename_i hk
      subst hk
      constructor
      · simp only [List.map_cons, List.nodup_cons]
        exact hkeys
      · intro p hp
        rcases List.mem_cons.mp hp with rfl | hp
        · exact setInsert_nodup t (hvals (k2, s) (List.mem_cons_self _ _))
        · exact hvals p (List.mem_cons_of_mem _ hp)
    · rename_i hk
      have hrest : WF rest :=
        ⟨hkeys.2, fun p hp => hvals p (List.mem_cons_of_mem _ hp)⟩
      obtain ⟨ihk, ihv⟩ := ih hrest
      constructor
      · simp only [List.map_cons, List.nodup_cons]
        refine ⟨fun hc => ?_, ihk⟩
        rcases mem_keys_rmInsert.mp hc with hc | rfl
        · exact hkeys.1 hc
        · exact hk rfl
      · intro p hp
        rcases List.mem_cons.mp hp with rfl | hp
        · exact hvals (k2, s) (List.mem_cons_self _ _)
        · exact ihv p hp

theorem addLogin_WF {m m2 : RepoMap} {repo login : JVal}
    (h : addLogin m repo login = .ok m2) (hw : WF m) : WF m2 := by
  unfold addLogin at h
  split at h
  · exact absurd h (by simp)
  · split at h
    · rename_i t
      cases h
      exact rmInsert_WF hw
    · exact absurd h (by simp)
    · cases h
      exact hw

theorem addIf_WF {m m2 : RepoMap} {repo : JVal} {login : Option JVal}
    (h : (if truthyOpt login then addLogin m repo (login.getD .null) else .ok m) = .ok m2)
    (hw : WF m) : WF m2 := by
  split at h
  · exact addLogin_WF h hw
  · cases h
    exact hw

theorem collectIssue_WF {m m2 : RepoMap} {r : Record}
    (h : collectIssue m r = .ok m2) (hw : WF m) : WF m2 := by
  simp only [collectIssue] at h
  split at h
  · exact absurd h (by simp)
  · split at h
    · exact absurd h (by simp)
    · rename_i m1 hm1
      have hw1 : WF m1 := addIf_WF hm1 hw
      split at h
      · split at h
        · exact absurd h (by simp)
        · exact addIf_WF h hw1
      · cases h
        exact hw1

theorem collectPR_WF {m m2 : RepoMap} {r : Record}
    (h : collectPR m r = .ok m2) (hw : WF m) : WF m2 := by
  simp only [collectPR] at h
  split at h
  · exact absurd h (by simp)
  · exact addIf_WF h hw

theorem collectCommit_WF {m m2 : RepoMap} {r : Record}
    (h : collectCommit m r = .ok m2) (hw : WF m) : WF m2 := by
  simp only [collectCommit] at h
  split at h
  · split at h
    · exact absurd h (by simp)
    · exact addIf_WF h hw
  · cases h
    exact hw

theorem collectEvent_WF {m m2 : RepoMap} {r : Record}
    (h : collectEvent m r = .ok m2) (hw : WF m) : WF m2 := by
  simp only [collectEvent] at h
  split at h
  · split at h
    · exact absurd h (by simp)
    · exact addIf_WF h hw
  · cases h
    exact hw

theorem foldE_WF {f : RepoMap → Record → Except Unit RepoMap}
    (hf : ∀ {m m2 : RepoMap} {r : Record}, f m r = .ok m2 → WF m → WF m2) :
    ∀ {l : List Record} {m m2 : RepoMap},
      foldE f m l = .ok m2 → WF m → WF m2 := by
  intro l
  induction l with
  | nil =>
    intro m m2 h hw
    cases h
    exact hw
  | cons r rest ih =>
    intro m m2 h hw
    simp only [foldE] at h
    split at h
    · exact absurd h (by simp)
    · rename_i m1 hm1
      exact ih h (hf hm1 hw)

theorem collectAll_WF {inp : Inputs} {rm : RepoMap}
    (h : collectAll inp = .ok rm) : WF rm := by
  have h0 : WF ([] : RepoMap) := ⟨List.nodup_nil, by simp⟩
  unfold collectAll at h
  split at h
  · exact absurd h (by simp)
  · rename_i m1 hm1
    split at h
    · exact absurd h (by simp)
    · rename_i m2 hm2
      split at h
      · exact absurd h (by simp)
      · rename_i m3 hm3
        exact foldE_WF (fun ha hb => collectEvent_WF ha hb) h
          (foldE_WF (fun ha hb => collectCommit_WF ha hb) hm3
            (foldE_WF (fun ha hb => collectPR_WF ha hb) hm2
              (foldE_WF (fun ha hb => collectIssue_WF ha hb) hm1 h0)))

/-! ### Canonical pair keys -/

theorem mkKey_cases (a b : String) : mkKey a b = (a, b) ∨ mkKey a b = (b, a) := by
  rw [mkKey_eq_le]
  split_ifs
  · exact Or.inl rfl
  · exact Or.inr rfl

theorem mkKey_comm (a b : String) : mkKey a b = mkKey b a := by
  rw [mkKey_eq_le, mkKey_eq_le]
  split_ifs with h1 h2 h2
  · have hab : a = b := le_antisymm h1 h2
    subst hab
    rfl
  · rfl
  · rfl
  · rcases le_total a b with h | h <;> contradiction

theorem mkKey_fst_lt {a b : String} (h : a ≠ b) :
    (mkKey a b).1 < (mkKey a b).2 := by
  rw [mkKey_eq_le]
  split_ifs with h1
  · exact lt_of_le_of_ne h1 h
  · exact lt_of_le_of_ne (le_of_not_le h1) (Ne.symm h)

theorem mkKey_eq {a b c d : String} (h : mkKey a b = mkKey c d) :
    (a = c ∧ b = d) ∨ (a = d ∧ b = c) := by
  rcases mkKey_cases a b with h1 | h1 <;> rcases mkKey_cases c d with h2 | h2 <;>
    rw [h1, h2] at h <;> injection h with e1 e2 <;> tauto

theorem mkKey_mem (a b : String) :
    ((mkKey a b).1 = a ∨ (mkKey a b).1 = b) ∧
      ((mkKey a b).2 = a ∨ (mkKey a b).2 = b) := by
  rcases mkKey_cases a b with h | h <;> rw [h] <;> tauto

/-! ### The pair enumeration -/

theorem pairsOf_mem {l : List String} {p : String × String}
    (h : p ∈ pairsOf l) : p.1 ∈ l ∧ p.2 ∈ l := by
  induction l with
  | nil => cases h
  | cons u rest ih =>
    simp only [pairsOf, List.mem_append, List.mem_map] at h
    rcases h with ⟨v, hv, rfl⟩ | h
    · exact ⟨List.mem_cons_self _ _, List.mem_cons_of_mem _ hv⟩
    · obtain ⟨h1, h2⟩ := ih h
      exact ⟨List.mem_cons_of_mem _ h1, List.mem_cons_of_mem _ h2⟩

theorem pairsOf_ne {l : List String} (hl : l.Nodup) {p : String × String}
    (h : p ∈ pairsOf l) : p.1 ≠ p.2 := by
  induction l with
  | nil => cases h
  | cons u rest ih =>
    rw [List.nodup_cons] at hl
    simp only [pairsOf, List.mem_append, List.mem_map] at h
    rcases h with ⟨v, hv, rfl⟩ | h
    · intro he
      have he2 : u = v := he
      exact hl.1 (he2 ▸ hv)
    · exact ih hl.2 h

theorem pairsOf_length : ∀ l : List String,
    (pairsOf l).length = l.length.choose 2
  | [] => by simp [pairsOf]
  | u :: rest => by
    simp only [pairsOf, List.length_append, List.length_map,
      pairsOf_length rest, List.length_cons]
    rw [Nat.choose_succ_succ, Nat.choose_one_right]

theorem pairsOf_keys_nodup {l : List String} (hl : l.Nodup) :
    ((pairsOf l).map (fun p => mkKey p.1 p.2)).Nodup := by
  induction l with
  | nil => simp [pairsOf]
  | cons u rest ih =>
    rw [List.nodup_cons] at hl
    simp only [pairsOf, List.map_append, List.map_map]
    rw [List.nodup_append]
    refine ⟨?_, ih hl.2, ?_⟩
    · refine List.Nodup.map_on ?_ hl.2
      intro v hv v2 hv2 he
      simp only [Function.comp] at he
      rcases mkKey_eq he with ⟨_, h2⟩ | ⟨h1, _⟩
      · exact h2
      · exact absurd (h1 ▸ hv2) hl.1
    · intro x hx1 hx2
      simp only [List.mem_map, Function.comp] at hx1 hx2
      obtain ⟨v, hv, rfl⟩ := hx1
      obtain ⟨p, hp, he⟩ := hx2
      have hmem := pairsOf_mem hp
      rcases mkKey_eq he with ⟨h1, _⟩ | ⟨_, h2⟩
      · exact hl.1 (h1 ▸ hmem.1)
      · exact hl.1 (h2 ▸ hmem.2)

/-! ### The pair accumulator -/

/-- `r` is recorded in the accumulator against the pair key `k`. -/
def hasRepo (pm : PairMap) (k : String × String) (r : RKey) : Prop :=
  ∃ rs, (k, rs) ∈ pm ∧ r ∈ rs

theorem hasRepo_nil {k : String × String} {r : RKey} :
    ¬ hasRepo [] k r := by
  rintro ⟨rs, hmem, _⟩
  cases hmem

theorem hasRepo_cons {k3 : String × String} {rs3 : List RKey} {rest : PairMap}
    {k2 : String × String} {r2 : RKey} :
    hasRepo ((k3, rs3) :: rest) k2 r2 ↔
      (k2 = k3 ∧ r2 ∈ rs3) ∨ hasRepo rest k2 r2 := by
  unfold hasRepo
  simp only [List.mem_cons, Prod.mk.injEq]
  constructor
  · rintro ⟨rs, ⟨hk, hrs⟩ | hmem, hr⟩
    · subst hk
      subst hrs
      exact Or.inl ⟨rfl, hr⟩
    · exact Or.inr ⟨rs, hmem, hr⟩
  · rintro (⟨hk, hr⟩ | ⟨rs, hmem, hr⟩)
    · exact ⟨rs3, Or.inl ⟨hk, rfl⟩, hr⟩
    · exact ⟨rs, Or.inr hmem, hr⟩

theorem hasRepo_pmAppend {pm : PairMap} {k k2 : String × String} {r r2 : RKey} :
    hasRepo (pmAppend pm k r) k2 r2 ↔
      hasRepo pm k2 r2 ∨ (k2 = k ∧ r2 = r) := by
  induction pm with
  | nil =>
    simp only [pmAppend]
    rw [hasRepo_cons]
    simp only [List.mem_singleton]
    constructor
    · rintro (⟨hk, hr⟩ | h)
      · exact Or.inr ⟨hk, hr⟩
      · exact absurd h hasRepo_nil
    · rintro (h | ⟨hk, hr⟩)
      · exact absurd h hasRepo_nil
      · exact Or.inl ⟨hk, hr⟩
  | cons q rest ih =>
    obtain ⟨k3, rs3⟩ := q
    unfold pmAppend
    split
    · rename_i hk
      subst hk
      rw [hasRepo_cons, hasRepo_cons]
      simp only [List.mem_append, List.mem_singleton]
      tauto
    · rename_i hk
      rw [hasRepo_cons, hasRepo_cons, ih]
      tauto

theorem mem_keys_pmAppend {pm : PairMap} {k x : String × String} {r : RKey} :
    x ∈ (pmAppend pm k r).map Prod.fst ↔ x ∈ pm.map Prod.fst ∨ x = k := by
  induction pm with
  | nil => simp [pmAppend]
  | cons q rest ih =>
    obtain ⟨k2, rs⟩ := q
    unfold pmAppend
    split
    · rename_i hk
      subst hk
      simp only [List.map_cons, List.mem_cons]
      tauto
    · simp only [List.map_cons, List.mem_cons, ih]
      tauto

theorem pmAppend_keys_nodup {pm : PairMap} {k : String × String} {r : RKey}
    (h : (pm.map Prod.fst).Nodup) : ((pmAppend pm k r).map Prod.fst).Nodup := by
  induction pm with
  | nil => simp [pmAppend]
  | cons q rest ih =>
    obtain ⟨k2, rs⟩ := q
    simp only [List.map_cons, List.nodup_cons] at h
    unfold pmAppend
    split
    · simp only [List.map_cons, List.nodup_cons]
      exact h
    · rename_i hk
      simp only [List.map_cons, List.nodup_cons]
      refine ⟨fun hc => ?_, ih h.2⟩
      rcases mem_keys_pmAppend.mp hc with hc | rfl
      · exact h.1 hc
      · exact hk rfl

theorem pmAppend_entry {pm : PairMap} {k : String × String} {r : RKey}
    {q : (String × String) × List RKey} (hq : q ∈ pmAppend pm k r) :
    q ∈ pm ∨ (q.1 = k ∧ (q.2 = [r] ∨ ∃ rs, (k, rs) ∈ pm ∧ q.2 = rs ++ [r])) := by
  induction pm with
  | nil =>
    simp only [pmAppend, List.mem_singleton] at hq
    subst hq
    exact Or.inr ⟨rfl, Or.inl rfl⟩
  | cons q2 rest ih =>
    obtain ⟨k2, rs2⟩ := q2
    unfold pmAppend at hq
    split at hq
    · rename_i hk
      subst hk
      rcases List.mem_cons.mp hq with rfl | hq
      · exact Or.inr ⟨rfl, Or.inr ⟨rs2, List.mem_cons_self _ _, rfl⟩⟩
      · exact Or.inl (List.mem_cons_of_mem _ hq)
    · rcases List.mem_cons.mp hq with rfl | hq
      · exact Or.inl (List.mem_cons_self _ _)
      · rcases ih hq with h | ⟨h1, h2 | ⟨rs, hrs, he⟩⟩
        · exact Or.inl (List.mem_cons_of_mem _ h)
        · exact Or.inr ⟨h1, Or.inl h2⟩
        · exact Or.inr ⟨h1, Or.inr ⟨rs, List.mem_cons_of_mem _ hrs, he⟩⟩

/-! ### Containment counters for one repository -/

/-- Number of accumulator entries whose repository list contains `r`
(after edge materialization this is `actual_collaborations`). -/
def countR (pm : PairMap) (r : RKey) : Nat :=
  pm.countP (fun e => decide (r ∈ e.2))

theorem countR_pmAppend_ne {pm : PairMap} {k : String × String} {r r2 : RKey}
    (hne : r2 ≠ r) : countR (pmAppend pm k r2) r = countR pm r := by
  induction pm with
  | nil =>
    simp [pmAppend, countR, List.countP, List.countP.go, hne, Ne.symm hne]
  | cons q rest ih =>
    obtain ⟨k2, rs2⟩ := q
    unfold pmAppend
    split
    · simp only [countR, List.countP_cons] at *
      have : (r ∈ rs2 ++ [r2]) ↔ (r ∈ rs2) := by
        simp [List.mem_append, Ne.symm hne]
      simp [this]
    · simp only [countR, List.countP_cons] at *
      rw [ih]

theorem countR_pmAppend_fresh {pm : PairMap} {k : String × String} {r : RKey}
    (h : ¬ hasRepo pm k r) : countR (pmAppend pm k r) r = countR pm r + 1 := by
  induction pm with
  | nil => simp [pmAppend, countR, List.countP, List.countP.go]
  | cons q rest ih =>
    obtain ⟨k2, rs2⟩ := q
    rw [hasRepo_cons] at h
    push_neg at h
    unfold pmAppend
    split
    · rename_i hk
      subst hk
      have hr : r ∉ rs2 := h.1 rfl
      simp only [countR, List.countP_cons]
      have h1 : (r ∈ rs2 ++ [r]) = True := by simp
      have h2 : (r ∈ rs2) = False := by simp [hr]
      simp [h1, h2]
    · have ih2 := ih h.2
      simp only [countR, List.countP_cons] at ih2 ⊢
      omega

theorem countR_zero {pm : PairMap} {r : RKey}
    (h : ∀ q ∈ pm, r ∉ q.2) : countR pm r = 0 := by
  unfold countR
  rw [List.countP_eq_zero]
  intro q hq
  simpa using h q hq

/-! ### The collaborator map -/

theorem lookupSet_ucAdd {m : UCMap} {u v a : String} :
    lookupSet (ucAdd m u v) a =
      if a = u then setInsert (lookupSet m u) v else lookupSet m a := by
  induction m with
  | nil =>
    simp only [ucAdd, lookupSet]
    have hs : setInsert [] v = [v] := by simp [setInsert]
    rw [hs]
    by_cases h : u = a
    · rw [if_pos h, if_pos h.symm]
    · rw [if_neg h, if_neg (fun h2 => h h2.symm)]
  | cons q rest ih =>
    obtain ⟨u2, s⟩ := q
    unfold ucAdd
    split
    · rename_i hu
      subst hu
      simp only [lookupSet]
      by_cases ha : u2 = a
      · simp [ha]
      · simp [ha, Ne.symm ha]
    · rename_i hu
      simp only [lookupSet]
      rw [ih, if_neg hu]
      by_cases ha : u2 = a
      · have hau : ¬ (a = u) := fun h => hu (ha.trans h)
        simp [ha, hau]
      · simp [ha]

theorem mem_lookupSet_ucAdd {m : UCMap} {u v a x : String} :
    x ∈ lookupSet (ucAdd m u v) a ↔
      x ∈ lookupSet m a ∨ (a = u ∧ x = v) := by
  rw [lookupSet_ucAdd]
  split_ifs with h
  · subst h
    rw [mem_setInsert]
    tauto
  · tauto

theorem mem_keys_ucAdd {m : UCMap} {u v x : String} :
    x ∈ (ucAdd m u v).map Prod.fst ↔ x ∈ m.map Prod.fst ∨ x = u := by
  induction m with
  | nil => simp [ucAdd]
  | cons q rest ih =>
    obtain ⟨u2, s⟩ := q
    unfold ucAdd
    split
    · rename_i hu
      subst hu
      simp only [List.map_cons, List.mem_cons]
      tauto
    · simp only [List.map_cons, List.mem_cons, ih]
      tauto

theorem ucAdd_keys_nodup {m : UCMap} {u v : String}
    (h : (m.map Prod.fst).Nodup) : ((ucAdd m u v).map Prod.fst).Nodup := by
  induction m with
  | nil => simp [ucAdd]
  | cons q rest ih =>
    obtain ⟨u2, s⟩ := q
    simp only [List.map_cons, List.nodup_cons] at h
    unfold ucAdd
    split
    · simp only [List.map_cons, List.nodup_cons]
      exact h
    · rename_i hu
      simp only [List.map_cons, List.nodup_cons]
      refine ⟨fun hc => ?_, ih h.2⟩
      rcases mem_keys_ucAdd.mp hc with hc | rfl
      · exact h.1 hc
      · exact hu rfl

theorem ucAdd_vals_ne_nil {m : UCMap} {u v : String}
    (h : ∀ p ∈ m, p.2 ≠ []) : ∀ p ∈ ucAdd m u v, p.2 ≠ [] := by
  induction m with
  | nil =>
    intro p hp
    simp only [ucAdd, List.mem_singleton] at hp
    subst hp
    simp
  | cons q rest ih =>
    obtain ⟨u2, s⟩ := q
    intro p hp
    unfold ucAdd at hp
    split at hp
    · rcases List.mem_cons.mp hp with rfl | hp
      · exact setInsert_ne_nil
      · exact h p (List.mem_cons_of_mem _ hp)
    · rcases List.mem_cons.mp hp with rfl | hp
      · exact h _ (List.mem_cons_self _ _)
      · exact ih (fun p2 hp2 => h p2 (List.mem_cons_of_mem _ hp2)) p hp

theorem mem_lookupSet_entry {m : UCMap} {a x : String}
    (h : x ∈ lookupSet m a) : ∃ s, (a, s) ∈ m ∧ x ∈ s := by
  induction m with
  | nil => cases h
  | cons q rest ih =>
    obtain ⟨u2, s2⟩ := q
    unfold lookupSet at h
    split at h
    · rename_i hu
      subst hu
      exact ⟨s2, List.mem_cons_self _ _, h⟩
    · obtain ⟨s, hmem, hx⟩ := ih h
      exact ⟨s, List.mem_cons_of_mem _ hmem, hx⟩

theorem lookupSet_of_mem {m : UCMap} {a : String} {s : List String}
    (hnd : (m.map Prod.fst).Nodup) (h : (a, s) ∈ m) : lookupSet m a = s := by
  induction m with
  | nil => cases h
  | cons q rest ih =>
    obtain ⟨u2, s2⟩ := q
    simp only [List.map_cons, List.nodup_cons] at hnd
    rcases List.mem_cons.mp h with he | h
    · injection he with e1 e2
      subst e1
      subst e2
      simp [lookupSet]
    · unfold lookupSet
      split
      · rename_i hu
        subst hu
        exact absurd (List.mem_map_of_mem Prod.fst h) hnd.1
      · exact ih hnd.2 h

/-! ### The graph-building invariant -/

/-- Joint invariant of the pair accumulator and the collaborator map
relative to the finished `repo_collaborators` map:
keys of both dicts are distinct; every pair key is strictly ascending;
every repository recorded against a pair has both pair members in its
contributor set; the collaborator map and the pair-key set describe the
same symmetric relation; collaborator sets are never empty. -/
def PMInv (rm : RepoMap) (pm : PairMap) (uc : UCMap) : Prop :=
  (pm.map Prod.fst).Nodup ∧
  (uc.map Prod.fst).Nodup ∧
  (∀ k ∈ pm.map Prod.fst, k.1 < k.2) ∧
  (∀ q ∈ pm, ∀ r ∈ q.2, ∃ cs, (r, cs) ∈ rm ∧ q.1.1 ∈ cs ∧ q.1.2 ∈ cs) ∧
  (∀ a b : String, b ∈ lookupSet uc a ↔ mkKey a b ∈ pm.map Prod.fst) ∧
  (∀ p ∈ uc, p.2 ≠ [])

theorem addPair_inv {rm : RepoMap} {st : PairMap × UCMap} {r : RKey}
    {cs : List String} {p : String × String}
    (hne : p.1 ≠ p.2) (h1 : p.1 ∈ cs) (h2 : p.2 ∈ cs) (hrc : (r, cs) ∈ rm)
    (h : PMInv rm st.1 st.2) :
    PMInv rm (addPair r st p).1 (addPair r st p).2 := by
  obtain ⟨hk, hu, hcan, hrep, hlink, hvne⟩ := h
  unfold addPair
  rw [if_pos hne]
  dsimp only
  refine ⟨pmAppend_keys_nodup hk, ucAdd_keys_nodup (ucAdd_keys_nodup hu),
    ?_, ?_, ?_, ucAdd_vals_ne_nil (ucAdd_vals_ne_nil hvne)⟩
  · intro k hke
    rcases mem_keys_pmAppend.mp hke with hke | rfl
    · exact hcan k hke
    · exact mkKey_fst_lt hne
  · intro q hq r2 hr2
    rcases pmAppend_entry hq with hq | ⟨hq1, hcase⟩
    · exact hrep q hq r2 hr2
    · have hcomp : q.1.1 ∈ cs ∧ q.1.2 ∈ cs := by
        rw [hq1]
        obtain ⟨e1, e2⟩ := mkKey_mem p.1 p.2
        constructor
        · rcases e1 with e | e <;> rw [e]
          · exact h1
          · exact h2
        · rcases e2 with e | e <;> rw [e]
          · exact h1
          · exact h2
      rcases hcase with he | ⟨rs, hrs, he⟩
      · rw [he] at hr2
        rcases List.mem_singleton.mp hr2 with rfl
        exact ⟨cs, hrc, hcomp⟩
      · rw [he] at hr2
        rcases List.mem_append.mp hr2 with hr2 | hr2
        · obtain ⟨cs2, hcs2, hc1, hc2⟩ := hrep (mkKey p.1 p.2, rs) hrs r2 hr2
          rw [hq1]
          exact ⟨cs2, hcs2, hc1, hc2⟩
        · rcases List.mem_singleton.mp hr2 with rfl
          exact ⟨cs, hrc, hcomp⟩
  · intro a b
    have hbr : mkKey a b = mkKey p.1 p.2 ↔
        (a = p.1 ∧ b = p.2) ∨ (a = p.2 ∧ b = p.1) := by
      constructor
      · exact mkKey_eq
      · rintro (⟨rfl, rfl⟩ | ⟨rfl, rfl⟩)
        · rfl
        · exact mkKey_comm p.2 p.1
    rw [mem_lookupSet_ucAdd, mem_lookupSet_ucAdd, mem_keys_pmAppend, hbr,
      hlink a b]
    tauto

theorem buildMaps_inv {rm : RepoMap} (hw : WF rm) :
    PMInv rm (buildMaps rm).1 (buildMaps rm).2 := by
  have base : PMInv rm ([] : PairMap) ([] : UCMap) := by
    refine ⟨List.nodup_nil, List.nodup_nil, ?_, ?_, ?_, ?_⟩
    · intro k hk
      cases hk
    · intro q hq
      cases hq
    · intro a b
      constructor
      · intro hb
        cases hb
      · intro hb
        cases hb
    · intro p hp
      cases hp
  unfold buildMaps
  exact foldl_inv (P := fun st => PMInv rm st.1 st.2) _ rm ([], [])
    (fun st rc hrc hinv => by
      have hcs : rc.2.Nodup := hw.2 rc hrc
      have hrc2 : (rc.1, rc.2) ∈ rm := by
        rw [Prod.mk.eta]
        exact hrc
      exact foldl_inv (P := fun st2 => PMInv rm st2.1 st2.2) _ (pairsOf rc.2) st
        (fun st2 p hp hinv2 =>
          addPair_inv (pairsOf_ne hcs hp) (pairsOf_mem hp).1 (pairsOf_mem hp).2
            hrc2 hinv2)
        hinv)
    base

/-! ### Counting the edges of one repository -/

theorem countR_addPair_ne {r r2 : RKey} (hne : r2 ≠ r)
    (st : PairMap × UCMap) (p : String × String) :
    countR (addPair r2 st p).1 r = countR st.1 r := by
  unfold addPair
  split
  · exact countR_pmAppend_ne hne
  · rfl

theorem noR_addPair {r r2 : RKey} (hne : r2 ≠ r) {st : PairMap × UCMap}
    {p : String × String} (h : ∀ q ∈ st.1, r ∉ q.2) :
    ∀ q ∈ (addPair r2 st p).1, r ∉ q.2 := by
  unfold addPair
  split
  · dsimp only
    intro q hq
    rcases pmAppend_entry hq with hq | ⟨_, he | ⟨rs, hrs, he⟩⟩
    · exact h q hq
    · rw [he]
      simp [Ne.symm hne]
    · rw [he]
      intro hr
      rcases List.mem_append.mp hr with hr | hr
      · exact h _ hrs hr
      · exact (Ne.symm hne) (List.mem_singleton.mp hr)
  · exact h

theorem inner_fresh {r : RKey} :
    ∀ (ps : List (String × String)) (st : PairMap × UCMap),
      (∀ p ∈ ps, p.1 ≠ p.2) →
      ((ps.map (fun p => mkKey p.1 p.2)).Nodup) →
      (∀ p ∈ ps, ¬ hasRepo st.1 (mkKey p.1 p.2) r) →
      countR (ps.foldl (addPair r) st).1 r = countR st.1 r + ps.length ∧
      (∀ k, hasRepo (ps.foldl (addPair r) st).1 k r ↔
        hasRepo st.1 k r ∨ k ∈ ps.map (fun p => mkKey p.1 p.2))
  | [], st, _, _, _ => by simp
  | p :: ps, st, hne, hnd, hfresh => by
    have hp1 : p.1 ≠ p.2 := hne p (List.mem_cons_self _ _)
    have hstep : (addPair r st p).1 = pmAppend st.1 (mkKey p.1 p.2) r := by
      unfold addPair
      rw [if_pos hp1]
    rw [List.map_cons, List.nodup_cons] at hnd
    have hfr : ¬ hasRepo st.1 (mkKey p.1 p.2) r :=
      hfresh p (List.mem_cons_self _ _)
    have hst1 : ∀ q ∈ ps, ¬ hasRepo (addPair r st p).1 (mkKey q.1 q.2) r := by
      intro q hq hcon
      rw [hstep, hasRepo_pmAppend] at hcon
      rcases hcon with hcon | ⟨hke, _⟩
      · exact hfresh q (List.mem_cons_of_mem _ hq) hcon
      · exact hnd.1 (hke ▸ List.mem_map_of_mem (fun p2 => mkKey p2.1 p2.2) hq)
    obtain ⟨ihc, ihh⟩ := inner_fresh ps (addPair r st p)
      (fun q hq => hne q (List.mem_cons_of_mem _ hq)) hnd.2 hst1
    constructor
    · rw [List.foldl_cons, ihc, hstep, countR_pmAppend_fresh hfr,
        List.length_cons]
      omega
    · intro k
      rw [List.foldl_cons, ihh k, hstep, hasRepo_pmAppend, List.map_cons,
        List.mem_cons]
      constructor
      · rintro ((h | ⟨rfl, _⟩) | h)
        · exact Or.inl h
        · exact Or.inr (Or.inl rfl)
        · exact Or.inr (Or.inr h)
      · rintro (h | rfl | h)
        · exact Or.inl (Or.inl h)
        · exact Or.inl (Or.inr ⟨rfl, rfl⟩)
        · exact Or.inr h

/-- Processing repositories other than `r` neither creates nor removes
entries containing `r`. -/
theorem countR_entries_ne {r : RKey} :
    ∀ (l : List (RKey × List String)) (st : PairMap × UCMap),
      (∀ q ∈ l, q.1 ≠ r) →
      countR (l.foldl (fun st2 rc => (pairsOf rc.2).foldl (addPair rc.1) st2) st).1 r
        = countR st.1 r
  | [], _, _ => rfl
  | rc :: l, st, hl => by
    rw [List.foldl_cons]
    rw [countR_entries_ne l _ (fun q hq => hl q (List.mem_cons_of_mem _ hq))]
    exact foldl_inv (P := fun st2 => countR st2.1 r = countR st.1 r)
      (addPair rc.1) (pairsOf rc.2) st
      (fun st2 p _ hc => by
        show countR (addPair rc.1 st2 p).1 r = countR st.1 r
        rw [countR_addPair_ne (hl rc (List.mem_cons_self _ _)) st2 p]
        exact hc)
      rfl

theorem noR_fold {r r2 : RKey} (hne : r2 ≠ r) (ps : List (String × String))
    (st : PairMap × UCMap) (h : ∀ q ∈ st.1, r ∉ q.2) :
    ∀ q ∈ (ps.foldl (addPair r2) st).1, r ∉ q.2 :=
  foldl_inv (P := fun st2 => ∀ q ∈ st2.1, r ∉ q.2) _ ps st
    (fun _ _ _ hc => noR_addPair hne hc) h

/-- After the whole accumulation, the number of pair entries containing a
repository `r` with contributor set `cs` is exactly `C(|cs|, 2)`. -/
theorem outer_count {r : RKey} {cs : List String} :
    ∀ (l : List (RKey × List String)) (st : PairMap × UCMap),
      ((l.map Prod.fst).Nodup) → (∀ q ∈ l, q.2.Nodup) →
      (r, cs) ∈ l → (∀ q ∈ st.1, r ∉ q.2) →
      countR (l.foldl (fun st2 rc => (pairsOf rc.2).foldl (addPair rc.1) st2) st).1 r
        = cs.length.choose 2
  | [], _, _, _, hmem, _ => absurd hmem (List.not_mem_nil _)
  | rc :: l, st, hnd, hvals, hmem, hfr => by
    rw [List.map_cons, List.nodup_cons] at hnd
    rcases List.mem_cons.mp hmem with he | hmem2
    · have hrc : rc = (r, cs) := he.symm
      subst hrc
      rw [List.foldl_cons]
      have hcs : cs.Nodup := hvals (r, cs) (List.mem_cons_self _ _)
      have hfresh : ∀ p ∈ pairsOf cs, ¬ hasRepo st.1 (mkKey p.1 p.2) r := by
        intro p _ ⟨rs, hrs, hr⟩
        exact hfr (mkKey p.1 p.2, rs) hrs hr
      obtain ⟨hc, _⟩ := inner_fresh (pairsOf cs) st
        (fun p hp => pairsOf_ne hcs hp)
        (pairsOf_keys_nodup hcs) hfresh
      have hrest : ∀ q ∈ l, q.1 ≠ r := by
        intro q hq he2
        apply hnd.1
        show r ∈ List.map Prod.fst l
        rw [← he2]
        exact List.mem_map_of_mem Prod.fst hq
      rw [countR_entries_ne l _ hrest, hc, countR_zero hfr, pairsOf_length]
      omega
    · have hrkeys : rc.1 ≠ r := by
        intro he2
        apply hnd.1
        rw [he2]
        exact List.mem_map_of_mem Prod.fst hmem2
      rw [List.foldl_cons]
      exact outer_count l _ hnd.2
        (fun q hq => hvals q (List.mem_cons_of_mem _ hq)) hmem2
        (noR_fold hrkeys (pairsOf rc.2) st hfr)

/-- `countR` of the finished accumulator for a repository of the map. -/
theorem buildMaps_countR {rm : RepoMap} (hw : WF rm) {r : RKey}
    {cs : List String} (hmem : (r, cs) ∈ rm) :
    countR (buildMaps rm).1 r = cs.length.choose 2 := by
  unfold buildMaps
  exact outer_count rm ([], []) hw.1 hw.2 hmem (fun q hq => absurd hq (List.not_mem_nil _))

/-! ### From internal maps to published artifacts -/

theorem process_ok {inp : Inputs} {out : Output}
    (h : processCollaborationNetworks inp = .ok out) :
    ∃ rm, collectAll inp = .ok rm ∧ WF rm ∧ out = outputOf rm := by
  unfold processCollaborationNetworks at h
  split at h
  · exact absurd h (by simp)
  · rename_i rm hrm
    injection h with h2
    exact ⟨rm, hrm, collectAll_WF hrm, h2.symm⟩

theorem mem_sortDesc {α : Type} {key : α → Nat} {l : List α} {x : α} :
    x ∈ sortDesc key l ↔ x ∈ l :=
  (sortDesc_perm key l).mem_iff

theorem outputOf_edges (rm : RepoMap) :
    (outputOf rm).edges = sortDesc (fun e => e.weight) (mkEdges (buildMaps rm).1) := rfl

theorem outputOf_um (rm : RepoMap) :
    (outputOf rm).user_metrics = mkUserMetrics rm (buildMaps rm).2 := rfl

theorem outputOf_ra (rm : RepoMap) :
    (outputOf rm).repo_analysis =
      mkRepoAnalysis rm (sortDesc (fun e => e.weight) (mkEdges (buildMaps rm).1)) := rfl

theorem outputOf_hubs (rm : RepoMap) :
    (outputOf rm).hubs = mkHubs rm (buildMaps rm).2 := rfl

theorem outputOf_stats (rm : RepoMap) :
    (outputOf rm).stats =
      mkStats rm (buildMaps rm).2
        (sortDesc (fun e => e.weight) (mkEdges (buildMaps rm).1))
        (mkHubs rm (buildMaps rm).2) := rfl

theorem mem_mkEdges {pm : PairMap} {e : Edge} :
    e ∈ mkEdges pm ↔ ∃ q ∈ pm, mkEdge q = e := by
  unfold mkEdges
  exact List.mem_map

theorem mem_mkRepoAnalysis {rm : RepoMap} {edges : List Edge} {p : RepoProfile} :
    p ∈ mkRepoAnalysis rm edges ↔ ∃ rc ∈ rm, mkRepoProfile edges rc = p := by
  unfold mkRepoAnalysis
  rw [mem_sortDesc]
  exact List.mem_map

theorem mem_mkUserMetrics {rm : RepoMap} {uc : UCMap} {m : UserMetric} :
    m ∈ mkUserMetrics rm uc ↔ ∃ p ∈ uc, mkUserMetric rm p = m := by
  unfold mkUserMetrics
  rw [mem_sortDesc]
  exact List.mem_map

theorem mem_mkHubs {rm : RepoMap} {uc : UCMap} {hb : Hub} :
    hb ∈ mkHubs rm uc ↔
      ∃ p ∈ uc, 1 < (reposOf rm p.1).length ∧ mkHub rm uc p = hb := by
  unfold mkHubs
  rw [mem_sortDesc, List.mem_map]
  constructor
  · rintro ⟨p, hp, he⟩
    rw [List.mem_filter] at hp
    exact ⟨p, hp.1, by simpa using hp.2, he⟩
  · rintro ⟨p, hp, hg, he⟩
    exact ⟨p, List.mem_filter.mpr ⟨hp, by simpa using hg⟩, he⟩

/-- The published `actual_collaborations` count is the accumulator count. -/
theorem actual_eq_countR (pm : PairMap) (r : RKey) :
    ((sortDesc (fun e => e.weight) (mkEdges pm)).filter
        (fun e => r ∈ e.repos)).length = countR pm r := by
  rw [← List.countP_eq_length_filter, (sortDesc_perm _ _).countP_eq]
  unfold mkEdges countR
  rw [List.countP_map]
  rfl

/-- Counting repositories that contain a login, at the artifact level. -/
theorem ra_count (rm : RepoMap) (edges : List Edge) (u : String) :
    ((mkRepoAnalysis rm edges).filter (fun p => u ∈ p.contributors)).length
      = (reposOf rm u).length := by
  unfold mkRepoAnalysis reposOf
  rw [List.length_map, ← List.countP_eq_length_filter,
    ← List.countP_eq_length_filter, (sortDesc_perm _ _).countP_eq,
    List.countP_map]
  rfl

theorem mem_reposOf {rm : RepoMap} {u : String} {r : RKey} :
    r ∈ reposOf rm u ↔ ∃ cs, (r, cs) ∈ rm ∧ u ∈ cs := by
  unfold reposOf
  rw [List.mem_map]
  constructor
  · rintro ⟨rc, hrc, rfl⟩
    rw [List.mem_filter] at hrc
    refine ⟨rc.2, ?_, by simpa using hrc.2⟩
    rw [Prod.mk.eta]
    exact hrc.1
  · rintro ⟨cs, hmem, hu⟩
    exact ⟨(r, cs), List.mem_filter.mpr ⟨hmem, by simpa using hu⟩, rfl⟩

theorem reposOf_nodup {rm : RepoMap} (hw : WF rm) (u : String) :
    (reposOf rm u).Nodup := by
  unfold reposOf
  exact ((List.filter_sublist rm).map Prod.fst).nodup hw.1

/-- Membership in the repository list of a login, at the artifact level. -/
theorem ra_repo_mem_iff {rm : RepoMap} {edges : List Edge} {u : String}
    {r : RKey} :
    (∃ p ∈ mkRepoAnalysis rm edges, p.repo = r ∧ u ∈ p.contributors) ↔
      r ∈ reposOf rm u := by
  rw [mem_reposOf]
  constructor
  · rintro ⟨p, hp, hrepo, hu⟩
    obtain ⟨rc, hrc, rfl⟩ := mem_mkRepoAnalysis.mp hp
    have hrepo2 : rc.1 = r := hrepo
    have hu2 : u ∈ rc.2 := hu
    refine ⟨rc.2, ?_, hu2⟩
    rw [← hrepo2, Prod.mk.eta]
    exact hrc
  · rintro ⟨cs, hmem, hu⟩
    exact ⟨mkRepoProfile edges (r, cs),
      mem_mkRepoAnalysis.mpr ⟨(r, cs), hmem, rfl⟩, rfl, hu⟩

/-- Stable insertion: inserting `a` does not disturb the relative order
of elements of any fixed key, and prepends `a` to its own key class. -/
theorem insDesc_filter_eq {α : Type} (key : α → Nat) (a : α) (w : Nat) :
    ∀ l : List α, l.Pairwise (fun x y => key y ≤ key x) →
      (insDesc key a l).filter (fun x => key x = w) =
        if key a = w then a :: l.filter (fun x => key x = w)
        else l.filter (fun x => key x = w)
  | [], _ => by
    by_cases haw : key a = w <;> simp [insDesc, haw]
  | b :: l, hp => by
    have hl : l.Pairwise (fun x y => key y ≤ key x) :=
      (List.pairwise_cons.mp hp).2
    have ihl := insDesc_filter_eq key a w l hl
    unfold insDesc
    split
    · by_cases haw : key a = w <;> simp [List.filter_cons, haw]
    · rename_i hba
      have hab : key a < key b := Nat.lt_of_not_le hba
      by_cases haw : key a = w
      · have hbw : ¬ (key b = w) := by omega
        rw [if_pos haw] at ihl ⊢
        simp [List.filter_cons, hbw, ihl]
      · rw [if_neg haw] at ihl ⊢
        simp [List.filter_cons, ihl]

/-- Stability of the descending sort: for every key value the elements
of that key keep their input order. -/
theorem sortDesc_stable {α : Type} (key : α → Nat) (w : Nat) :
    ∀ l : List α, (sortDesc key l).filter (fun x => key x = w) =
      l.filter (fun x => key x = w)
  | [] => rfl
  | a :: l => by
    unfold sortDesc
    rw [insDesc_filter_eq key a w (sortDesc key l) (sortDesc_sorted key l),
      sortDesc_stable key w l]
    by_cases haw : key a = w <;> simp [List.filter_cons, haw]

theorem um_user_iff {rm : RepoMap} {uc : UCMap} {u : String} :
    (∃ m ∈ mkUserMetrics rm uc, m.user = u) ↔ u ∈ uc.map Prod.fst := by
  constructor
  · rintro ⟨m, hm, rfl⟩
    obtain ⟨p, hp, he⟩ := mem_mkUserMetrics.mp hm
    rw [← he]
    exact List.mem_map_of_mem Prod.fst hp
  · intro hu
    obtain ⟨p, hp, he⟩ := List.mem_map.mp hu
    exact ⟨mkUserMetric rm p, mem_mkUserMetrics.mpr ⟨p, hp, rfl⟩, he⟩

theorem um_collab_iff {rm : RepoMap} {uc : UCMap}
    (hnd : (uc.map Prod.fst).Nodup) {a b : String} :
    (∃ m ∈ mkUserMetrics rm uc, m.user = a ∧ b ∈ m.collaborators) ↔
      b ∈ lookupSet uc a := by
  constructor
  · rintro ⟨m, hm, hua, hb⟩
    obtain ⟨p, hp, he⟩ := mem_mkUserMetrics.mp hm
    rw [← he] at hua hb
    have hua2 : p.1 = a := hua
    have hb2 : b ∈ p.2 := hb
    have hpa : (a, p.2) = p := by
      rw [← hua2, Prod.mk.eta]
    have hlk : lookupSet uc a = p.2 := lookupSet_of_mem hnd (hpa ▸ hp)
    rw [hlk]
    exact hb2
  · intro hb
    obtain ⟨s, hs, hbs⟩ := mem_lookupSet_entry hb
    exact ⟨mkUserMetric rm (a, s), mem_mkUserMetrics.mpr ⟨(a, s), hs, rfl⟩,
      rfl, hbs⟩

theorem edge_key_iff {pm : PairMap}
    (hcan : ∀ k ∈ pm.map Prod.fst, k.1 < k.2) {a b : String} :
    (∃ e ∈ sortDesc (fun e2 => e2.weight) (mkEdges pm),
        (e.source = a ∧ e.target = b) ∨ (e.source = b ∧ e.target = a)) ↔
      mkKey a b ∈ pm.map Prod.fst := by
  constructor
  · rintro ⟨e, he, hcase⟩
    rw [mem_sortDesc] at he
    obtain ⟨q, hq, he2⟩ := mem_mkEdges.mp he
    have hkmem : q.1 ∈ pm.map Prod.fst := List.mem_map_of_mem Prod.fst hq
    have hlt := hcan q.1 hkmem
    rcases hcase with ⟨h1, h2⟩ | ⟨h1, h2⟩
    · rw [← he2] at h1 h2
      have h1b : q.1.1 = a := h1
      have h2b : q.1.2 = b := h2
      have hk : mkKey a b = q.1 := by
        rw [← h1b, ← h2b, mkKey_eq_le, if_pos (le_of_lt hlt), Prod.mk.eta]
      rw [hk]
      exact hkmem
    · rw [← he2] at h1 h2
      have h1b : q.1.1 = b := h1
      have h2b : q.1.2 = a := h2
      have hk : mkKey a b = q.1 := by
        rw [← h1b, ← h2b, mkKey_eq_le, if_neg (not_le.mpr hlt), Prod.mk.eta]
      rw [hk]
      exact hkmem
  · intro hk
    obtain ⟨q, hq, he⟩ := List.mem_map.mp hk
    refine ⟨mkEdge q, mem_sortDesc.mpr (mem_mkEdges.mpr ⟨q, hq, rfl⟩), ?_⟩
    rcases mkKey_cases a b with hc | hc <;> rw [hc] at he
    · left
      show q.1.1 = a ∧ q.1.2 = b
      rw [he]
      exact ⟨rfl, rfl⟩
    · right
      show q.1.1 = b ∧ q.1.2 = a
      rw [he]
      exact ⟨rfl, rfl⟩

/-! ### Field computations of the artifact records -/

theorem rp_repo (edges : List Edge) (rc : RKey × List String) :
    (mkRepoProfile edges rc).repo = rc.1 := rfl

theorem rp_ccount (edges : List Edge) (rc : RKey × List String) :
    (mkRepoProfile edges rc).contributor_count = rc.2.length := rfl

theorem rp_contributors (edges : List Edge) (rc : RKey × List String) :
    (mkRepoProfile edges rc).contributors = rc.2 := rfl

theorem rp_potential (edges : List Edge) (rc : RKey × List String) :
    (mkRepoProfile edges rc).potential_collaborations =
      rc.2.length * (rc.2.length - 1) / 2 := rfl

theorem rp_actual (edges : List Edge) (rc : RKey × List String) :
    (mkRepoProfile edges rc).actual_collaborations =
      (edges.filter (fun e => rc.1 ∈ e.repos)).length := rfl

theorem rp_density (edges : List Edge) (rc : RKey × List String) :
    (mkRepoProfile edges rc).collaboration_density =
      if 0 < rc.2.length * (rc.2.length - 1) / 2 then
        (((edges.filter (fun e => rc.1 ∈ e.repos)).length : ℚ) /
          ((rc.2.length * (rc.2.length - 1) / 2 : Nat) : ℚ))
      else 0 := rfl

theorem mkRepoProfile_density_zero {edges : List Edge}
    {rc : RKey × List String} (h : rc.2.length ≤ 1) :
    (mkRepoProfile edges rc).collaboration_density = 0 := by
  have hp : rc.2.length * (rc.2.length - 1) / 2 = 0 := by
    have h01 : rc.2.length = 0 ∨ rc.2.length = 1 := by omega
    rcases h01 with he | he <;> rw [he]
  rw [rp_density, hp]
  simp

/-! ### Settling the claims: proved invariants -/

/-- C5: every published edge has two distinct endpoint logins, stored in
ascending lexicographic order, and no unordered pair of logins is
materialized twice (so `\x7ba,b\x7d` and `\x7bb,a\x7d` never both appear). -/
theorem c5_no_self_loops_canonical {inp : Inputs} {out : Output}
    (h : processCollaborationNetworks inp = .ok out) :
    (∀ e ∈ out.edges, e.source < e.target) ∧
      (out.edges.map (fun e => (e.source, e.target))).Nodup := by
  obtain ⟨rm, _, hw, rfl⟩ := process_ok h
  obtain ⟨hk, _, hcan, _, _, _⟩ := buildMaps_inv hw
  rw [outputOf_edges]
  constructor
  · intro e he
    rw [mem_sortDesc] at he
    obtain ⟨q, hq, rfl⟩ := mem_mkEdges.mp he
    exact hcan q.1 (List.mem_map_of_mem Prod.fst hq)
  · have hperm : List.Perm
        ((sortDesc (fun e => e.weight) (mkEdges (buildMaps rm).1)).map
          (fun e => (e.source, e.target)))
        ((mkEdges (buildMaps rm).1).map (fun e => (e.source, e.target))) :=
      (sortDesc_perm _ _).map _
    rw [hperm.nodup_iff]
    have he : (mkEdges (buildMaps rm).1).map (fun e => (e.source, e.target)) =
        ((buildMaps rm).1).map Prod.fst := by
      unfold mkEdges
      rw [List.map_map]
      rfl
    rw [he]
    exact hk

/-- C6: every published edge has `weight = len(repos)`, and every
repository listed on an edge has both endpoint logins in its published
contributor set. -/
theorem c6_weight_consistency {inp : Inputs} {out : Output}
    (h : processCollaborationNetworks inp = .ok out) :
    ∀ e ∈ out.edges, e.weight = e.repos.length ∧
      ∀ r ∈ e.repos, ∃ p ∈ out.repo_analysis,
        p.repo = r ∧ e.source ∈ p.contributors ∧ e.target ∈ p.contributors := by
  obtain ⟨rm, _, hw, rfl⟩ := process_ok h
  obtain ⟨_, _, _, hrep, _, _⟩ := buildMaps_inv hw
  intro e he
  rw [outputOf_edges, mem_sortDesc] at he
  obtain ⟨q, hq, rfl⟩ := mem_mkEdges.mp he
  refine ⟨rfl, ?_⟩
  intro r hr
  have hr2 : r ∈ q.2 := hr
  obtain ⟨cs, hcs, hc1, hc2⟩ := hrep q hq r hr2
  refine ⟨mkRepoProfile
      (sortDesc (fun e2 => e2.weight) (mkEdges (buildMaps rm).1)) (r, cs),
    ?_, rfl, hc1, hc2⟩
  rw [outputOf_ra]
  exact mem_mkRepoAnalysis.mpr ⟨(r, cs), hcs, rfl⟩

/-- C7: the published collaborator relation is symmetric, and two logins
are collaborators exactly when some published edge joins them. -/
theorem c7_collaborator_symmetry {inp : Inputs} {out : Output}
    (h : processCollaborationNetworks inp = .ok out) :
    ∀ a b : String,
      ((∃ m ∈ out.user_metrics, m.user = a ∧ b ∈ m.collaborators) ↔
        (∃ m ∈ out.user_metrics, m.user = b ∧ a ∈ m.collaborators)) ∧
      ((∃ m ∈ out.user_metrics, m.user = a ∧ b ∈ m.collaborators) ↔
        (∃ e ∈ out.edges, (e.source = a ∧ e.target = b) ∨
          (e.source = b ∧ e.target = a))) := by
  obtain ⟨rm, _, hw, rfl⟩ := process_ok h
  obtain ⟨_, hund, hcan, _, hlink, _⟩ := buildMaps_inv hw
  intro a b
  rw [outputOf_um, outputOf_edges]
  constructor
  · rw [um_collab_iff hund, um_collab_iff hund, hlink a b, hlink b a,
      mkKey_comm a b]
  · rw [um_collab_iff hund, hlink a b, edge_key_iff hcan]

/-- C8: every division is guarded: repositories with at most one
contributor have density exactly 0, and each network-summary average is
exactly 0 when its denominator count is 0. -/
theorem c8_division_guards {inp : Inputs} {out : Output}
    (h : processCollaborationNetworks inp = .ok out) :
    (∀ p ∈ out.repo_analysis, p.contributor_count ≤ 1 →
      p.collaboration_density = 0) ∧
    (out.stats.total_users = 0 → out.stats.avg_collaborators_per_user = 0) ∧
    (out.stats.total_repositories = 0 →
      out.stats.avg_contributors_per_repo = 0) := by
  obtain ⟨rm, _, hw, rfl⟩ := process_ok h
  refine ⟨?_, ?_, ?_⟩
  · intro p hp hc
    rw [outputOf_ra] at hp
    obtain ⟨rc, hrc, rfl⟩ := mem_mkRepoAnalysis.mp hp
    rw [rp_ccount] at hc
    exact mkRepoProfile_density_zero hc
  · intro hz
    rw [outputOf_stats] at hz ⊢
    have he : (buildMaps rm).2 = [] := List.length_eq_zero.mp hz
    show (if ((buildMaps rm).2).isEmpty then (0 : ℚ) else _) = 0
    rw [he]
    rfl
  · intro hz
    rw [outputOf_stats] at hz ⊢
    have he : rm = [] := List.length_eq_zero.mp hz
    show (if rm.isEmpty then (0 : ℚ) else _) = 0
    rw [he]
    rfl

/-- C10: in every published repository profile the actual edge count
equals the potential pair count, so the density is exactly 1 as soon as
the repository has at least two contributors and exactly 0 otherwise. -/
theorem c10_degenerate_density {inp : Inputs} {out : Output}
    (h : processCollaborationNetworks inp = .ok out) :
    ∀ p ∈ out.repo_analysis,
      p.actual_collaborations = p.potential_collaborations ∧
      (2 ≤ p.contributor_count → p.collaboration_density = 1) ∧
      (p.contributor_count ≤ 1 → p.collaboration_density = 0) := by
  obtain ⟨rm, _, hw, rfl⟩ := process_ok h
  intro p hp
  rw [outputOf_ra] at hp
  obtain ⟨rc, hrc, rfl⟩ := mem_mkRepoAnalysis.mp hp
  have hrc2 : (rc.1, rc.2) ∈ rm := by
    rw [Prod.mk.eta]
    exact hrc
  have hact : (mkRepoProfile
      (sortDesc (fun e2 => e2.weight) (mkEdges (buildMaps rm).1))
      rc).actual_collaborations = rc.2.length.choose 2 := by
    rw [rp_actual, actual_eq_countR]
    exact buildMaps_countR hw hrc2
  have hpot : (mkRepoProfile
      (sortDesc (fun e2 => e2.weight) (mkEdges (buildMaps rm).1))
      rc).potential_collaborations = rc.2.length.choose 2 := by
    rw [rp_potential, Nat.choose_two_right]
  refine ⟨by rw [hact, hpot], ?_, ?_⟩
  · intro h2
    rw [rp_ccount] at h2
    have hpos : 0 < rc.2.length * (rc.2.length - 1) / 2 := by
      rw [← Nat.choose_two_right]
      exact Nat.choose_pos h2
    rw [rp_density, if_pos hpos]
    have hae : ((sortDesc (fun e2 => e2.weight)
          (mkEdges (buildMaps rm).1)).filter
          (fun e => rc.1 ∈ e.repos)).length
        = rc.2.length * (rc.2.length - 1) / 2 := by
      rw [actual_eq_countR, buildMaps_countR hw hrc2, Nat.choose_two_right]
    rw [hae]
    exact div_self (by exact_mod_cast Nat.pos_iff_ne_zero.mp hpos)
  · intro h1
    rw [rp_ccount] at h1
    exact mkRepoProfile_density_zero h1

/-- C2 (amended): the published edge list is sorted by weight in
descending order, and the sort is stable: the published list is exactly
the stable descending sort of the materialized accumulator edges, so
for every weight the equal-weight edges appear exactly as in the
accumulator, in insertion order (the canonical tie-break of the
original claim does not hold). -/
theorem c2_weight_sorted_desc {inp : Inputs} {out : Output}
    (h : processCollaborationNetworks inp = .ok out) :
    out.edges.Pairwise (fun x y => y.weight ≤ x.weight) ∧
    ∃ rm, collectAll inp = .ok rm ∧
      out.edges = sortDesc (fun e => e.weight) (mkEdges (buildMaps rm).1) ∧
      ∀ w : Nat, out.edges.filter (fun e => e.weight = w) =
        (mkEdges (buildMaps rm).1).filter (fun e => e.weight = w) := by
  obtain ⟨rm, hrm, _, rfl⟩ := process_ok h
  rw [outputOf_edges]
  exact ⟨sortDesc_sorted _ _, rm, hrm, rfl,
    fun w => sortDesc_stable (fun e => e.weight) w (mkEdges (buildMaps rm).1)⟩

/-- C1 (amended): a login appears in the hub list iff it has a user
profile (at least one collaborator) and contributes to strictly more
than one repository; a hub entry carries the repository list of the
login — a duplicate-free list whose members are exactly the published
repositories whose contributor set contains the login — `repo_count`
equal to the length of that list, and the collaborator count of the
login; the hub list is sorted by `repo_count` descending. -/
theorem c1_hub_amended {inp : Inputs} {out : Output}
    (h : processCollaborationNetworks inp = .ok out) :
    (∀ u : String,
      (∃ hb ∈ out.hubs, hb.user = u) ↔
        ((∃ m ∈ out.user_metrics, m.user = u) ∧
          1 < (out.repo_analysis.filter
            (fun p => u ∈ p.contributors)).length)) ∧
    (∀ hb ∈ out.hubs,
      hb.repo_count = (out.repo_analysis.filter
        (fun p => hb.user ∈ p.contributors)).length ∧
      hb.repo_count = hb.repositories.length ∧
      hb.repositories.Nodup ∧
      (∀ r : RKey, r ∈ hb.repositories ↔
        ∃ p ∈ out.repo_analysis, p.repo = r ∧ hb.user ∈ p.contributors) ∧
      (∃ m ∈ out.user_metrics, m.user = hb.user ∧
        m.collaborator_count = hb.total_collaborators)) ∧
    out.hubs.Pairwise (fun x y => y.repo_count ≤ x.repo_count) := by
  obtain ⟨rm, _, hw, rfl⟩ := process_ok h
  obtain ⟨_, hund, _, _, _, _⟩ := buildMaps_inv hw
  refine ⟨?_, ?_, ?_⟩
  · intro u
    rw [outputOf_hubs, outputOf_um, outputOf_ra, ra_count, um_user_iff]
    constructor
    · rintro ⟨hb, hhb, rfl⟩
      obtain ⟨p, hp, hg, he⟩ := mem_mkHubs.mp hhb
      rw [← he]
      exact ⟨List.mem_map_of_mem Prod.fst hp, hg⟩
    · rintro ⟨hu, hcount⟩
      obtain ⟨p, hp, hpe⟩ := List.mem_map.mp hu
      refine ⟨mkHub rm (buildMaps rm).2 p,
        mem_mkHubs.mpr ⟨p, hp, ?_, rfl⟩, hpe⟩
      rw [hpe]
      exact hcount
  · intro hb hhb
    rw [outputOf_hubs] at hhb
    obtain ⟨p, hp, hg, rfl⟩ := mem_mkHubs.mp hhb
    refine ⟨?_, rfl, reposOf_nodup hw p.1, ?_, ?_⟩
    · rw [outputOf_ra, ra_count]
      rfl
    · intro r
      rw [outputOf_ra]
      exact Iff.symm ra_repo_mem_iff
    · rw [outputOf_um]
      have hpm : (p.1, p.2) ∈ (buildMaps rm).2 := by
        rw [Prod.mk.eta]
        exact hp
      refine ⟨mkUserMetric rm p, mem_mkUserMetrics.mpr ⟨p, hp, rfl⟩, rfl, ?_⟩
      show p.2.length = (lookupSet (buildMaps rm).2 p.1).length
      rw [lookupSet_of_mem hund hpm]
  · rw [outputOf_hubs]
    exact sortDesc_sorted _ _

/-! ### Concrete inputs: counterexamples, failing inputs, witnesses -/

/-- A cross-repository scenario: alice acts in R1 and R2, bob in R1,
carol in R2 (one issue, two pull requests, one commit). -/
def wIn : Inputs :=
  { issues := [[("repo_name", .str "R1"), ("user", .obj [("login", .str "alice")])]]
    prs := [[("repo_name", .str "R1"), ("user", .obj [("login", .str "bob")])],
            [("repo_name", .str "R2"), ("user", .obj [("login", .str "alice")])]]
    commits := [[("repo_name", .str "R2"), ("author", .obj [("login", .str "carol")])]]
    events := [] }

/-- The contributor map the pipeline collects from `wIn`. -/
def wRM : RepoMap := [(.str "R1", ["alice", "bob"]), (.str "R2", ["alice", "carol"])]

/-- The artifacts the pipeline computes from `wIn`. -/
def wOut : Output := outputOf wRM

theorem wRM_eval : collectAll wIn = .ok wRM := rfl

theorem wOut_eval : processCollaborationNetworks wIn = .ok wOut := rfl

/-- The concrete edge list of `wOut` (two cross-repository edges). -/
theorem wOut_edges_concrete :
    wOut.edges = [⟨"alice", "bob", 1, [.str "R1"]⟩,
      ⟨"alice", "carol", 1, [.str "R2"]⟩] := rfl

/-- alice is the sole contributor of two distinct repositories: she
contributes to more than one repository but has no collaborator. -/
def c1In : Inputs :=
  { issues := [[("repo_name", .str "R1"), ("user", .obj [("login", .str "alice")])],
               [("repo_name", .str "R2"), ("user", .obj [("login", .str "alice")])]]
    prs := []
    commits := []
    events := [] }

/-- The contributor map the pipeline collects from `c1In`. -/
def c1RM : RepoMap := [(.str "R1", ["alice"]), (.str "R2", ["alice"])]

/-- The artifacts the pipeline computes from `c1In`: no edges, no user
metrics, and an empty hub list although alice spans two repositories. -/
def c1Out : Output := outputOf c1RM

theorem c1Out_eval : processCollaborationNetworks c1In = .ok c1Out := rfl

/-- `c1Out` concretely: no hubs, alice in both contributor sets. -/
theorem c1Out_concrete :
    c1Out.hubs = [] ∧
      c1Out.repo_analysis.map (fun p => (p.repo, p.contributors)) =
        [(.str "R1", ["alice"]), (.str "R2", ["alice"])] := ⟨rfl, rfl⟩

/-- Two single-pair repositories whose edges tie at weight 1 and are
accumulated in non-canonical order (bob-carol before alice-bob). -/
def c2In : Inputs :=
  { issues := []
    prs := [[("repo_name", .str "R1"), ("user", .obj [("login", .str "bob")])],
            [("repo_name", .str "R1"), ("user", .obj [("login", .str "carol")])],
            [("repo_name", .str "R2"), ("user", .obj [("login", .str "alice")])],
            [("repo_name", .str "R2"), ("user", .obj [("login", .str "bob")])]]
    commits := []
    events := [] }

/-- The contributor map the pipeline collects from `c2In`. -/
def c2RM : RepoMap := [(.str "R1", ["bob", "carol"]), (.str "R2", ["alice", "bob"])]

/-- The artifacts the pipeline computes from `c2In`: the two equal-weight
edges stay in insertion order, bob-carol before alice-bob. -/
def c2Out : Output := outputOf c2RM

theorem c2Out_eval : processCollaborationNetworks c2In = .ok c2Out := rfl

/-- The concrete published edge list of `c2Out`. -/
theorem c2Out_edges_concrete :
    c2Out.edges = [⟨"bob", "carol", 1, [.str "R1"]⟩,
      ⟨"alice", "bob", 1, [.str "R2"]⟩] := rfl

/-- The ordering the specification claims for the edge list: weight
descending, ties broken by the lexicographically smaller login and then
the other login. -/
def edgeOrdClaim (x y : Edge) : Prop :=
  y.weight < x.weight ∨
    (y.weight = x.weight ∧
      (x.source < y.source ∨ (x.source = y.source ∧ x.target ≤ y.target)))

/-- An issues list whose leading entry contains a `_metadata` key and
also activity fields. -/
def c3In : Inputs :=
  { issues := [[("_metadata", .obj [("source", .str "github")]),
                ("repo_name", .str "R"),
                ("user", .obj [("login", .str "alice")])]]
    prs := []
    commits := []
    events := [] }

/-- An issue whose `user` field is present but null (no reporter login,
no assignee). -/
def c4In : Inputs :=
  { issues := [[("repo_name", .str "R"), ("user", .null)]]
    prs := []
    commits := []
    events := [] }

/-- A pull request whose `user` field is present but null (the record
has no actor login). -/
def c9In : Inputs :=
  { issues := []
    prs := [[("repo_name", .str "RP"), ("user", .null)]]
    commits := []
    events := [] }

/-! ### Settling the claims: counterexamples and code bugs -/

/-- C1 counterexample: on `c1In`, alice is contained in the contributor
sets of 2 > 1 published repositories, yet the hub list is empty, so the
claimed "iff" over every login fails (the code only considers keys of
`user_collaborations`, i.e. logins with at least one collaborator). -/
theorem c1_counterexample :
    processCollaborationNetworks c1In = .ok c1Out ∧
    ¬ ((∃ hb ∈ c1Out.hubs, hb.user = "alice") ↔
        1 < (c1Out.repo_analysis.filter
          (fun p => "alice" ∈ p.contributors)).length) :=
  ⟨c1Out_eval, by decide⟩

/-- C2 counterexample: on `c2In` the published edge list is
[bob-carol, alice-bob], two equal-weight edges NOT in canonical pair
order (alice-bob would have to come first), refuting the claimed
tie-break (the code sorts by weight only, line 82). -/
theorem c2_counterexample :
    processCollaborationNetworks c2In = .ok c2Out ∧
    ¬ c2Out.edges.Pairwise edgeOrdClaim := by
  refine ⟨c2Out_eval, fun hpair => ?_⟩
  rw [c2Out_edges_concrete] at hpair
  have h12 := (List.pairwise_cons.mp hpair).1 _ (List.mem_cons_self _ _)
  unfold edgeOrdClaim at h12
  rcases h12 with hw | ⟨_, hs | ⟨hs, _⟩⟩
  · exact absurd hw (by decide)
  · have hlt : ("bob").toList < ("alice").toList := String.lt_iff_toList_lt.mp hs
    revert hlt
    decide
  · exact absurd hs (by decide)

/-- C3 (code bug): the skipping loop of lines 21-23 rebinds its loop
variable, so the leading metadata entry is processed like any record;
with `c3In` it contributes the pair (R, alice) that the claim (and the
comment at line 20) says must be skipped. -/
theorem c3_metadata_entry_processed :
    Except.map
        (fun (o : Output) => o.repo_analysis.map
          (fun (p : RepoProfile) => (p.repo, p.contributors)))
        (processCollaborationNetworks c3In) =
      .ok [(.str "R", ["alice"])] := rfl

/-- C4 (code bug): an issue record whose `user` field is null makes
line 31 call `.get` on None, raising AttributeError: the pipeline
errors instead of treating the field as absent. -/
theorem c4_null_user_raises :
    processCollaborationNetworks c4In = .error () := rfl

/-- C9 (code bug): a pull-request record with a null `user` field (a
record with no actor login) is not dropped; line 38 raises
AttributeError and the pipeline errors. -/
theorem c9_null_pr_user_raises :
    processCollaborationNetworks c9In = .error () := rfl

/-! ### Witnesses for the hypothesised theorems -/

theorem c1_witness :
    processCollaborationNetworks wIn = .ok wOut ∧
    ((∀ u : String,
      (∃ hb ∈ wOut.hubs, hb.user = u) ↔
        ((∃ m ∈ wOut.user_metrics, m.user = u) ∧
          1 < (wOut.repo_analysis.filter
            (fun p => u ∈ p.contributors)).length)) ∧
    (∀ hb ∈ wOut.hubs,
      hb.repo_count = (wOut.repo_analysis.filter
        (fun p => hb.user ∈ p.contributors)).length ∧
      hb.repo_count = hb.repositories.length ∧
      hb.repositories.Nodup ∧
      (∀ r : RKey, r ∈ hb.repositories ↔
        ∃ p ∈ wOut.repo_analysis, p.repo = r ∧ hb.user ∈ p.contributors) ∧
      (∃ m ∈ wOut.user_metrics, m.user = hb.user ∧
        m.collaborator_count = hb.total_collaborators)) ∧
    wOut.hubs.Pairwise (fun x y => y.repo_count ≤ x.repo_count)) :=
  ⟨wOut_eval, c1_hub_amended wOut_eval⟩

theorem c2_witness :
    processCollaborationNetworks wIn = .ok wOut ∧
    (wOut.edges.Pairwise (fun x y => y.weight ≤ x.weight) ∧
      ∃ rm, collectAll wIn = .ok rm ∧
        wOut.edges = sortDesc (fun e => e.weight) (mkEdges (buildMaps rm).1) ∧
        ∀ w : Nat, wOut.edges.filter (fun e => e.weight = w) =
          (mkEdges (buildMaps rm).1).filter (fun e => e.weight = w)) :=
  ⟨wOut_eval, c2_weight_sorted_desc wOut_eval⟩

theorem c5_witness :
    processCollaborationNetworks wIn = .ok wOut ∧
    ((∀ e ∈ wOut.edges, e.source < e.target) ∧
      (wOut.edges.map (fun e => (e.source, e.target))).Nodup) :=
  ⟨wOut_eval, c5_no_self_loops_canonical wOut_eval⟩

theorem c6_witness :
    processCollaborationNetworks wIn = .ok wOut ∧
    (∀ e ∈ wOut.edges, e.weight = e.repos.length ∧
      ∀ r ∈ e.repos, ∃ p ∈ wOut.repo_analysis,
        p.repo = r ∧ e.source ∈ p.contributors ∧ e.target ∈ p.contributors) :=
  ⟨wOut_eval, c6_weight_consistency wOut_eval⟩

theorem c7_witness :
    processCollaborationNetworks wIn = .ok wOut ∧
    (∀ a b : String,
      ((∃ m ∈ wOut.user_metrics, m.user = a ∧ b ∈ m.collaborators) ↔
        (∃ m ∈ wOut.user_metrics, m.user = b ∧ a ∈ m.collaborators)) ∧
      ((∃ m ∈ wOut.user_metrics, m.user = a ∧ b ∈ m.collaborators) ↔
        (∃ e ∈ wOut.edges, (e.source = a ∧ e.target = b) ∨
          (e.source = b ∧ e.target = a)))) :=
  ⟨wOut_eval, c7_collaborator_symmetry wOut_eval⟩

theorem c8_witness :
    processCollaborationNetworks c1In = .ok c1Out ∧
    ((∀ p ∈ c1Out.repo_analysis, p.contributor_count ≤ 1 →
        p.collaboration_density = 0) ∧
      (c1Out.stats.total_users = 0 →
        c1Out.stats.avg_collaborators_per_user = 0) ∧
      (c1Out.stats.total_repositories = 0 →
        c1Out.stats.avg_contributors_per_repo = 0)) :=
  ⟨c1Out_eval, c8_division_guards c1Out_eval⟩

theorem c10_witness :
    processCollaborationNetworks wIn = .ok wOut ∧
    (∀ p ∈ wOut.repo_analysis,
      p.actual_collaborations = p.potential_collaborations ∧
      (2 ≤ p.contributor_count → p.collaboration_density = 1) ∧
      (p.contributor_count ≤ 1 → p.collaboration_density = 0)) :=
  ⟨wOut_eval, c10_degenerate_density wOut_eval⟩

end CoOps
